import Mathlib

/-!
Verification of the entity-component storage core of lemon-toolkit-rs.

Embedded from the source tree:
- src/ecs/bitset.rs: fixed bitmask BitSet and growable DynamicBitSet;
- crayon-runtime/src/utility/handle.rs: generational Handle;
- src/utils/object_pool.rs: ObjectPool over the handle pool;
- src/ecs/iterator.rs: next_item and the splittable ViewSlice.

The handle pool (utils/handle_pool.rs) and the world (ecs/world.rs,
ecs/component.rs) are not present in the source tree; only their callers
and tests are. Those parts are modelled from the specification and the
corresponding definitions carry a doc comment starting with
"Modelled from the spec:".
-/

namespace Lemon

/-- Number of backing words of the fixed bitmask; src/ecs/bitset.rs sets
the constant MAX_COMPONENTS to 1. -/
def MAX_COMPONENTS : Nat := 1

/-- Fixed-capacity bitmask BitSet from src/ecs/bitset.rs. The backing
field in the source is an array of MAX_COMPONENTS u64 words; with
MAX_COMPONENTS = 1 this is the single word, kept here as a Nat that the
operations keep below 2 ^ 64. -/
structure BitSet where
  bits : Nat
deriving DecidableEq, Repr

/-- BitSet::new. -/
def BitSet.new : BitSet := { bits := 0 }

/-- BitSet::split: word index and bit index of a component bit position.
The source asserts index < MAX_COMPONENTS * 64 with a fatal panic, so the
result is an Option, none standing for the fatal assertion failure. The
source divides and takes the remainder by len = MAX_COMPONENTS * 64. -/
def BitSet.split (index : Nat) : Option (Nat × Nat) :=
  let len := MAX_COMPONENTS * 64
  if index < len then some (index / len, index % len) else none

/-- BitSet::insert: sets the bit, panicking (none) on an out-of-capacity
index. With MAX_COMPONENTS = 1 the word index returned by split is
always 0, the single backing word. -/
def BitSet.insert (s : BitSet) (index : Nat) : Option BitSet :=
  (BitSet.split index).map fun p => { bits := s.bits ||| (1 <<< p.2) }

/-- BitSet::remove: clears the bit. The u64 complement of (1 << b) is
2 ^ 64 - 1 - 2 ^ b. -/
def BitSet.remove (s : BitSet) (index : Nat) : Option BitSet :=
  (BitSet.split index).map fun p =>
    { bits := s.bits &&& (2 ^ 64 - 1 - (1 <<< p.2)) }

/-- BitSet::contains: tests the bit as (1 << b) & word > 0. -/
def BitSet.contains (s : BitSet) (index : Nat) : Option Bool :=
  (BitSet.split index).map fun p => decide (0 < (1 <<< p.2) &&& s.bits)

/-- BitSet::intersect_with: word-wise bitwise AND over the
MAX_COMPONENTS = 1 backing words. -/
def BitSet.intersect_with (s rhs : BitSet) : BitSet :=
  { bits := s.bits &&& rhs.bits }

/-- Modelled from the spec: World::register (ecs/world.rs is not in the
source tree) assigns the next unused type-slot id, and fails fatally at
registration time when the fixed bitmask capacity MAX_COMPONENTS * 64 is
exhausted; none stands for the fatal configuration error. -/
def registerTypeId (registeredCount : Nat) : Option Nat :=
  if registeredCount < MAX_COMPONENTS * 64 then some registeredCount else none

/-- DynamicBitSet from src/ecs/bitset.rs: growable word vector. -/
structure DynamicBitSet where
  bits : List Nat
deriving DecidableEq, Repr

/-- DynamicBitSet::new. -/
def DynamicBitSet.new : DynamicBitSet := { bits := [] }

/-- DynamicBitSet::split: same division as the fixed variant but with no
assertion on the index. -/
def DynamicBitSet.split (index : Nat) : Nat × Nat :=
  let len := MAX_COMPONENTS * 64
  (index / len, index % len)

/-- DynamicBitSet::insert. The source grows the vector with reserve
followed by set_len, which leaves every word from the old length up to
the new word index uninitialized; the oracle junk supplies the contents
of those words (each reduced mod 2 ^ 64, a u64 read from uninitialized
memory). Afterwards the target word is OR-ed with the bit. -/
def DynamicBitSet.insert (s : DynamicBitSet) (junk : Nat → Nat)
    (index : Nat) : DynamicBitSet :=
  let p := DynamicBitSet.split index
  let grown :=
    if s.bits.length ≤ p.1 then
      s.bits ++ (List.range (p.1 + 1 - s.bits.length)).map
        (fun k => junk (s.bits.length + k) % 2 ^ 64)
    else s.bits
  { bits := grown.set p.1 (grown.getD p.1 0 ||| (1 <<< p.2)) }

/-- DynamicBitSet::remove: an out-of-range word index returns with the
bitset unchanged. -/
def DynamicBitSet.remove (s : DynamicBitSet) (index : Nat) : DynamicBitSet :=
  let p := DynamicBitSet.split index
  if s.bits.length ≤ p.1 then s
  else { bits := s.bits.set p.1 (s.bits.getD p.1 0 &&& (2 ^ 64 - 1 - (1 <<< p.2))) }

/-- DynamicBitSet::contains: an out-of-range word index reports false. -/
def DynamicBitSet.contains (s : DynamicBitSet) (index : Nat) : Bool :=
  let p := DynamicBitSet.split index
  if s.bits.length ≤ p.1 then false
  else decide (0 < (1 <<< p.2) &&& s.bits.getD p.1 0)

/-- All-ones junk oracle: one possible content of the uninitialized
words left by set_len in DynamicBitSet::insert. -/
def junkOnes : Nat → Nat := fun _ => 2 ^ 64 - 1

end Lemon

namespace Lemon

/-- C9: intersect is idempotent, intersect(M, M) = M, and commutative,
intersect(M1, M2) = intersect(M2, M1), where equality of bitmasks is
field-wise equality of the backing words. -/
theorem bitset_intersect_idempotent_comm :
    (∀ M : BitSet, M.intersect_with M = M) ∧
    (∀ M1 M2 : BitSet, M1.intersect_with M2 = M2.intersect_with M1) := by
  constructor
  · intro M
    show BitSet.mk (M.bits &&& M.bits) = M
    have h : M.bits &&& M.bits = M.bits :=
      Nat.eq_of_testBit_eq fun i => by
        rw [Nat.testBit_land, Bool.and_self]
    rw [h]
  · intro M1 M2
    show BitSet.mk (M1.bits &&& M2.bits) = BitSet.mk (M2.bits &&& M1.bits)
    rw [Nat.land_comm]

/-- C7: on the dynamic bitmask, for every bit index whose word position
lies at or beyond the current backing-word range, remove returns with the
bitset unchanged and contains reports false; neither panics. -/
theorem dynamic_remove_contains_out_of_range_absent
    (s : DynamicBitSet) (i : Nat)
    (hout : s.bits.length ≤ (DynamicBitSet.split i).1) :
    s.remove i = s ∧ s.contains i = false := by
  constructor
  · unfold DynamicBitSet.remove
    simp [hout]
  · unfold DynamicBitSet.contains
    simp [hout]

/-- Witness for C7 at the empty dynamic bitset and bit index 130. -/
theorem dynamic_remove_contains_out_of_range_absent_witness :
    DynamicBitSet.new.remove 130 = DynamicBitSet.new ∧
    DynamicBitSet.new.contains 130 = false :=
  dynamic_remove_contains_out_of_range_absent DynamicBitSet.new 130 (by decide)

/-- C6: the capacity check of the fixed bitmask. Registration (modelled
from the spec, ecs/world.rs being absent from the source tree) issues
sequential type ids and fails fatally exactly when the capacity
MAX_COMPONENTS * 64 is exhausted, so every registered id lies below the
capacity; and for every bit index below the capacity, insert, remove and
contains all succeed (the assertion in BitSet::split passes), so no
fatal error is ever raised by these use-time operations on a registered
id. -/
theorem bitset_capacity_fatal_at_registration_only :
    (∀ n i, registerTypeId n = some i → i < MAX_COMPONENTS * 64) ∧
    (∀ n, (registerTypeId n).isSome = true ↔ n < MAX_COMPONENTS * 64) ∧
    (∀ (s : BitSet) (i : Nat), i < MAX_COMPONENTS * 64 →
      (s.insert i).isSome = true ∧ (s.remove i).isSome = true ∧
        (s.contains i).isSome = true) := by
  refine ⟨?_, ?_, ?_⟩
  · intro n i h
    unfold registerTypeId at h
    by_cases hn : n < MAX_COMPONENTS * 64
    · simp [hn] at h
      omega
    · simp [hn] at h
  · intro n
    unfold registerTypeId
    by_cases hn : n < MAX_COMPONENTS * 64 <;> simp [hn]
  · intro s i hi
    unfold BitSet.insert BitSet.remove BitSet.contains BitSet.split
    simp [hi]

/-- Witness for C6 at bit index 5. -/
theorem bitset_capacity_fatal_at_registration_only_witness :
    (BitSet.new.insert 5).isSome = true ∧
    (BitSet.new.remove 5).isSome = true ∧
    (BitSet.new.contains 5).isSome = true :=
  bitset_capacity_fatal_at_registration_only.2.2 BitSet.new 5 (by decide)

/-- C10 (failing input): inserting bit 64 into an empty DynamicBitSet
grows the backing vector by two words via reserve plus set_len, leaving
word 0 uninitialized. Under an all-ones content of that uninitialized
memory, contains(0) reports true for a bit that was never inserted,
while under zero-filled content it reports false: the result on a
never-inserted bit depends on uninitialized memory. -/
theorem dynamic_insert_leaves_uninitialized_words :
    (DynamicBitSet.new.insert junkOnes 64).contains 0 = true ∧
    (DynamicBitSet.new.insert (fun _ => 0) 64).contains 0 = false := by
  constructor
  · decide
  · decide

end Lemon

namespace Lemon

/-- Handle from crayon-runtime/src/utility/handle.rs: an index and an
index-generation version, both u32; the derived equality requires both
fields to match. -/
structure Handle where
  index : Nat
  version : Nat
deriving DecidableEq, Repr

/-- Modelled from the spec: HandlePool (utils/handle_pool.rs is not in
the source tree). versions stores the current generation of every issued
index slot; frees is the free list of recycled indices. -/
structure HandlePool where
  versions : List Nat
  frees : List Nat
deriving DecidableEq, Repr

/-- Modelled from the spec: an empty handle pool. -/
def HandlePool.new : HandlePool := { versions := [], frees := [] }

/-- Modelled from the spec: create reuses a free index if available,
otherwise grows, and assigns the slot's current generation as the handle
version; a fresh slot starts at generation 1 so that the nil handle
(0, 0) is never issued. -/
def HandlePool.create (p : HandlePool) : Handle × HandlePool :=
  match p.frees with
  | i :: rest =>
    (⟨i, p.versions.getD i 0⟩, { versions := p.versions, frees := rest })
  | [] =>
    (⟨p.versions.length, 1⟩, { versions := p.versions ++ [1], frees := [] })

/-- Modelled from the spec: is_alive is the version-match check on a
currently issued, non-free index. -/
def HandlePool.is_alive (p : HandlePool) (h : Handle) : Bool :=
  decide (h.index < p.versions.length) && decide (h.index ∉ p.frees) &&
    decide (p.versions.getD h.index 0 = h.version)

/-- Modelled from the spec: free succeeds only if the handle index is
alive and the handle version equals the stored version; on success it
increments the slot's stored version and returns the index to the free
list, otherwise it is a no-op returning false. -/
def HandlePool.free (p : HandlePool) (h : Handle) : Bool × HandlePool :=
  if p.is_alive h then
    (true, { versions := p.versions.set h.index (p.versions.getD h.index 0 + 1),
             frees := h.index :: p.frees })
  else (false, p)

/-- Operations on a handle pool, used to model an arbitrary later
history of the allocator. -/
inductive PoolOp where
  | create : PoolOp
  | free : Handle → PoolOp
deriving Repr

/-- Applies a sequence of allocator operations. -/
def HandlePool.run (p : HandlePool) : List PoolOp → HandlePool
  | [] => p
  | PoolOp.create :: ops => (p.create).2.run ops
  | PoolOp.free h :: ops => (p.free h).2.run ops

/-- ObjectPool from src/utils/object_pool.rs over the modelled handle
pool: values is the backing vector of optional slots, one per index. -/
structure ObjectPool (α : Type) where
  handles : HandlePool
  values : List (Option α)

/-- ObjectPool::free from src/utils/object_pool.rs: delegates to
HandlePool::free; on success swaps the slot with None and returns the
old value, otherwise returns None. -/
def ObjectPool.free {α : Type} (p : ObjectPool α) (h : Handle) :
    Option α × ObjectPool α :=
  if (p.handles.free h).1 then
    (p.values.getD h.index none,
     { handles := (p.handles.free h).2, values := p.values.set h.index none })
  else (none, { handles := (p.handles.free h).2, values := p.values })

end Lemon

namespace Lemon

theorem getD_le_append_one (l : List Nat) (i : Nat) :
    l.getD i 0 ≤ (l ++ [1]).getD i 0 := by
  induction l generalizing i with
  | nil => simp [List.getD]
  | cons a l ih =>
    cases i with
    | zero => simp
    | succ n => simpa using ih n

theorem getD_le_set_incr (l : List Nat) (j i : Nat) :
    l.getD i 0 ≤ (l.set j (l.getD j 0 + 1)).getD i 0 := by
  induction l generalizing j i with
  | nil => simp
  | cons a l ih =>
    cases j with
    | zero =>
      cases i with
      | zero => simp
      | succ n => simp
    | succ m =>
      cases i with
      | zero => simp
      | succ n => simpa using ih m n

theorem getD_set_self (l : List Nat) (j x : Nat) (hj : j < l.length) :
    (l.set j x).getD j 0 = x := by
  induction l generalizing j with
  | nil => simp at hj
  | cons a l ih =>
    cases j with
    | zero => simp
    | succ m => simpa using ih m (by simpa using hj)

theorem create_versions_getD_le (p : HandlePool) (i : Nat) :
    p.versions.getD i 0 ≤ (p.create).2.versions.getD i 0 := by
  unfold HandlePool.create
  cases hf : p.frees with
  | cons j rest => simp
  | nil => simpa using getD_le_append_one p.versions i

theorem free_versions_getD_le (p : HandlePool) (h : Handle) (i : Nat) :
    p.versions.getD i 0 ≤ (p.free h).2.versions.getD i 0 := by
  unfold HandlePool.free
  by_cases ha : p.is_alive h
  · simpa [ha] using getD_le_set_incr p.versions h.index i
  · simp [ha]

theorem create_length_le (p : HandlePool) :
    p.versions.length ≤ (p.create).2.versions.length := by
  unfold HandlePool.create
  cases hf : p.frees with
  | cons j rest => simp
  | nil => simp

theorem free_length_le (p : HandlePool) (h : Handle) :
    p.versions.length ≤ (p.free h).2.versions.length := by
  unfold HandlePool.free
  by_cases ha : p.is_alive h
  · simp [ha]
  · simp [ha]

theorem run_versions_getD_le (ops : List PoolOp) (p : HandlePool) (i : Nat) :
    p.versions.getD i 0 ≤ ((p.run ops).versions).getD i 0 := by
  induction ops generalizing p with
  | nil => exact Nat.le_refl _
  | cons op ops ih =>
    cases op with
    | create =>
      exact Nat.le_trans (create_versions_getD_le p i) (ih (p.create).2)
    | free h =>
      exact Nat.le_trans (free_versions_getD_le p h i) (ih (p.free h).2)

theorem run_length_le (ops : List PoolOp) (p : HandlePool) :
    p.versions.length ≤ (p.run ops).versions.length := by
  induction ops generalizing p with
  | nil => exact Nat.le_refl _
  | cons op ops ih =>
    cases op with
    | create => exact Nat.le_trans (create_length_le p) (ih (p.create).2)
    | free h => exact Nat.le_trans (free_length_le p h) (ih (p.free h).2)

theorem free_fst_true_is_alive (p : HandlePool) (h : Handle)
    (hf : (p.free h).1 = true) : p.is_alive h = true := by
  unfold HandlePool.free at hf
  by_cases ha : p.is_alive h
  · exact ha
  · simp [ha] at hf

theorem free_fst_false_noop (p : HandlePool) (h : Handle)
    (hf : (p.free h).1 = false) : (p.free h).2 = p := by
  unfold HandlePool.free at hf ⊢
  by_cases ha : p.is_alive h
  · simp [ha] at hf
  · simp [ha]

theorem is_alive_elim (p : HandlePool) (h : Handle)
    (ha : p.is_alive h = true) :
    h.index < p.versions.length ∧ h.index ∉ p.frees ∧
      p.versions.getD h.index 0 = h.version := by
  unfold HandlePool.is_alive at ha
  simp only [Bool.and_eq_true, decide_eq_true_eq] at ha
  exact ⟨ha.1.1, ha.1.2, ha.2⟩

theorem free_snd_of_alive (p : HandlePool) (h : Handle)
    (ha : p.is_alive h = true) :
    (p.free h).2 = { versions := p.versions.set h.index (p.versions.getD h.index 0 + 1),
                     frees := h.index :: p.frees } := by
  unfold HandlePool.free
  simp [ha]

theorem is_alive_false_of_version_ne (p : HandlePool) (h : Handle)
    (hne : p.versions.getD h.index 0 ≠ h.version) : p.is_alive h = false := by
  unfold HandlePool.is_alive
  have hd : decide (p.versions.getD h.index 0 = h.version) = false := by
    simpa using hne
  rw [hd, Bool.and_false]

end Lemon

namespace Lemon

/-- C3: after a successful free(h1), is_alive(h1) is false, stays false
across any later sequence of allocator operations, and any later create
that reuses the same index returns a handle different from h1, because
free increments the slot's stored version (which never decreases
afterwards) and handle equality requires both the index and the version
fields to match. -/
theorem free_invalidates_handle_and_reuse_differs
    (p : HandlePool) (h1 : Handle) (hfree : (p.free h1).1 = true)
    (ops : List PoolOp) :
    ((p.free h1).2).is_alive h1 = false ∧
    ((((p.free h1).2).run ops)).is_alive h1 = false ∧
    (((((p.free h1).2).run ops).create).1.index = h1.index →
      ((((p.free h1).2).run ops).create).1 ≠ h1) := by
  have ha := free_fst_true_is_alive p h1 hfree
  obtain ⟨hlen, hnf, hver⟩ := is_alive_elim p h1 ha
  have hsnd := free_snd_of_alive p h1 ha
  have hgetD1 : ((p.free h1).2).versions.getD h1.index 0 = h1.version + 1 := by
    rw [hsnd]
    show (p.versions.set h1.index (p.versions.getD h1.index 0 + 1)).getD h1.index 0
      = h1.version + 1
    rw [getD_set_self p.versions h1.index (p.versions.getD h1.index 0 + 1) hlen, hver]
  have hlen1 : h1.index < ((p.free h1).2).versions.length := by
    rw [hsnd]
    simpa using hlen
  have hmono : h1.version + 1 ≤
      ((((p.free h1).2).run ops)).versions.getD h1.index 0 := by
    calc h1.version + 1 = ((p.free h1).2).versions.getD h1.index 0 := hgetD1.symm
    _ ≤ _ := run_versions_getD_le ops ((p.free h1).2) h1.index
  have hlenr : h1.index < (((p.free h1).2).run ops).versions.length :=
    Nat.lt_of_lt_of_le hlen1 (run_length_le ops ((p.free h1).2))
  refine ⟨?_, ?_, ?_⟩
  · exact is_alive_false_of_version_ne _ _ (by rw [hgetD1]; omega)
  · exact is_alive_false_of_version_ne _ _ (by omega)
  · intro hidx heq
    unfold HandlePool.create at hidx heq
    cases hfr : (((p.free h1).2).run ops).frees with
    | nil =>
      rw [hfr] at hidx
      simp at hidx
      omega
    | cons j rest =>
      rw [hfr] at hidx heq
      simp at hidx heq
      have hverEq : (((p.free h1).2).run ops).versions.getD j 0 = h1.version := by
        have := congrArg Handle.version heq
        simpa using this
      rw [hidx] at hverEq
      omega

/-- Witness for C3: in the pool with one slot at generation 1, freeing
the handle (0, 1) succeeds, is_alive of it is false afterwards, and the
next create returns the handle (0, 2), different from (0, 1). -/
theorem free_invalidates_handle_and_reuse_differs_witness :
    (({ versions := [1], frees := [] } : HandlePool).free ⟨0, 1⟩).2.is_alive ⟨0, 1⟩ = false ∧
    ((((({ versions := [1], frees := [] } : HandlePool).free ⟨0, 1⟩).2).run []).create).1 ≠ (⟨0, 1⟩ : Handle) := by
  have h := free_invalidates_handle_and_reuse_differs
    { versions := [1], frees := [] } ⟨0, 1⟩ (by decide) []
  exact ⟨h.1, h.2.2 (by decide)⟩

/-- C8: freeing a handle that the handle pool does not consider alive
(unknown index, already freed, or stale version) through the object pool
is a no-op returning an empty result: the whole pool state, and hence the
liveness of every handle, every stored value and the live count, is
unchanged. -/
theorem object_pool_free_dead_handle_noop {α : Type} (p : ObjectPool α)
    (h : Handle) (hdead : p.handles.is_alive h = false) :
    p.free h = (none, p) ∧
    (∀ h2, ((p.free h).2).handles.is_alive h2 = p.handles.is_alive h2) ∧
    ((p.free h).2).values = p.values := by
  have hfst : (p.handles.free h).1 = false := by
    unfold HandlePool.free
    simp [hdead]
  have hnoop : (p.handles.free h).2 = p.handles := free_fst_false_noop _ _ hfst
  have hmain : p.free h = (none, p) := by
    unfold ObjectPool.free
    rw [hfst, hnoop]
    simp
  refine ⟨hmain, ?_, ?_⟩
  · intro h2
    rw [hmain]
  · rw [hmain]

/-- Witness for C8 at the empty object pool and the nil handle. -/
theorem object_pool_free_dead_handle_noop_witness :
    ObjectPool.free (α := Nat) ⟨HandlePool.new, []⟩ ⟨0, 0⟩ =
      (none, ⟨HandlePool.new, []⟩) :=
  (object_pool_free_dead_handle_noop ⟨HandlePool.new, []⟩ ⟨0, 0⟩ (by decide)).1

end Lemon

namespace Lemon

/-- next_item from src/ecs/iterator.rs: advances the live-handle stream
until an entity whose mask intersected with the view query mask equals
the query mask is found, and returns it with the rest of the stream.
masks is the world mask table read at the entity index (the source reads
world.masks unchecked); the live-handle stream HandleIter is modelled
from the spec as the list of remaining live handles (handle_pool.rs is
not in the source tree). -/
def next_item (qmask : BitSet) (masks : Nat → BitSet) :
    List Handle → Option (Handle × List Handle)
  | [] => none
  | e :: rest =>
    if (masks e.index).intersect_with qmask = qmask then some (e, rest)
    else next_item qmask masks rest

/-- The sequence of entities produced by exhausting a view stream, that
is, by calling next_item repeatedly until it returns none; see the
lemma collectView_eq_next_item below. -/
def collectView (qmask : BitSet) (masks : Nat → BitSet) :
    List Handle → List Handle
  | [] => []
  | e :: rest =>
    if (masks e.index).intersect_with qmask = qmask then
      e :: collectView qmask masks rest
    else collectView qmask masks rest

/-- Modelled from the spec: HandleIter::split_with divides the remaining
live-handle stream at stream position n: the first n positions form the
left half and the rest the right half. The handle iterator has no access
to any query mask; ViewSlice::split_with in src/ecs/iterator.rs passes
its count argument straight through to it. -/
def HandleIter.split_with (l : List Handle) (n : Nat) :
    List Handle × List Handle :=
  (l.take n, l.drop n)

/-- Modelled from the spec: HandleIter::split divides the remaining
range at its midpoint. -/
def HandleIter.split (l : List Handle) : List Handle × List Handle :=
  (l.take (l.length / 2), l.drop (l.length / 2))

/-- ViewSlice from src/ecs/iterator.rs: the view pointer contributes the
query mask, the iterator field is the remaining live-handle stream. -/
structure ViewSlice where
  view : BitSet
  iterator : List Handle
deriving DecidableEq, Repr

/-- The entities a view slice yields when exhausted. -/
def ViewSlice.items (s : ViewSlice) (masks : Nat → BitSet) : List Handle :=
  collectView s.view masks s.iterator

/-- ViewSlice::split_with from src/ecs/iterator.rs: splits the
underlying handle iterator with the given count and pairs each half with
the same view. -/
def ViewSlice.split_with (s : ViewSlice) (n : Nat) : ViewSlice × ViewSlice :=
  (⟨s.view, (HandleIter.split_with s.iterator n).1⟩,
   ⟨s.view, (HandleIter.split_with s.iterator n).2⟩)

/-- ViewSlice::split from src/ecs/iterator.rs: splits the underlying
handle iterator at its midpoint and pairs each half with the same view. -/
def ViewSlice.split (s : ViewSlice) : ViewSlice × ViewSlice :=
  (⟨s.view, (HandleIter.split s.iterator).1⟩,
   ⟨s.view, (HandleIter.split s.iterator).2⟩)

/-- Concrete mask table for the C5 counterexample: entity index 0 holds
no component, every other index holds component type 0. -/
def cmasksC5 : Nat → BitSet := fun i => if i = 0 then ⟨0⟩ else ⟨1⟩

/-- Concrete view slice for the C5 counterexample: query mask is type 0,
the live-handle stream holds three entities of which the first does not
match. -/
def sliceC5 : ViewSlice := ⟨⟨1⟩, [⟨0, 1⟩, ⟨1, 1⟩, ⟨2, 1⟩]⟩

end Lemon

namespace Lemon

theorem collectView_eq_next_item (qmask : BitSet) (masks : Nat → BitSet)
    (l : List Handle) :
    collectView qmask masks l =
      (match next_item qmask masks l with
       | none => []
       | some (e, rest) => e :: collectView qmask masks rest) := by
  induction l with
  | nil => rfl
  | cons e rest ih =>
    by_cases hp : (masks e.index).intersect_with qmask = qmask
    · simp only [collectView, next_item, if_pos hp]
    · simp only [collectView, next_item, if_neg hp]
      exact ih

theorem collectView_eq_filter (qmask : BitSet) (masks : Nat → BitSet)
    (l : List Handle) :
    collectView qmask masks l =
      l.filter (fun e => decide ((masks e.index).intersect_with qmask = qmask)) := by
  induction l with
  | nil => rfl
  | cons e rest ih =>
    by_cases hp : (masks e.index).intersect_with qmask = qmask
    · simp [collectView, List.filter_cons, hp, ih]
    · simp [collectView, List.filter_cons, hp, ih]

theorem intersect_eq_iff_superset (m q : BitSet) :
    m.intersect_with q = q ↔
      ∀ i, q.bits.testBit i = true → m.bits.testBit i = true := by
  constructor
  · intro h i hq
    have hb : (m.bits &&& q.bits).testBit i = q.bits.testBit i := by
      have hbits : (m.intersect_with q).bits = q.bits := by rw [h]
      simpa [BitSet.intersect_with] using congrArg (fun n => n.testBit i) hbits
    rw [Nat.testBit_land, hq, Bool.and_true] at hb
    exact hb
  · intro h
    show BitSet.mk (m.bits &&& q.bits) = q
    have hbits : m.bits &&& q.bits = q.bits := Nat.eq_of_testBit_eq fun i => by
      rw [Nat.testBit_land]
      cases hq : q.bits.testBit i
      · rw [Bool.and_false]
      · rw [h i hq, Bool.true_and]
    rw [hbits]

theorem collectView_take_drop (qmask : BitSet) (masks : Nat → BitSet)
    (l : List Handle) (n : Nat) :
    collectView qmask masks (l.take n) ++ collectView qmask masks (l.drop n) =
      collectView qmask masks l := by
  rw [collectView_eq_filter, collectView_eq_filter, collectView_eq_filter,
    ← List.filter_append, List.take_append_drop]

end Lemon

namespace Lemon

/-- C1: exhausting a view stream yields exactly the live entities whose
presence mask is a superset of the query mask, in the order of the
live-handle stream: the yielded stream is the filter of the live stream
by the condition intersect(entity mask, query mask) = query mask, it is
a sublist of the live stream (same relative order), and an entity is
yielded iff it lies in the live stream and its mask contains every bit
of the query mask. -/
theorem view_with_yields_superset_in_order (qmask : BitSet)
    (masks : Nat → BitSet) (liveStream : List Handle) :
    collectView qmask masks liveStream =
      liveStream.filter
        (fun e => decide ((masks e.index).intersect_with qmask = qmask)) ∧
    (collectView qmask masks liveStream).Sublist liveStream ∧
    (∀ e, e ∈ collectView qmask masks liveStream ↔
      e ∈ liveStream ∧
        ∀ i, qmask.bits.testBit i = true →
          ((masks e.index).bits).testBit i = true) := by
  refine ⟨collectView_eq_filter qmask masks liveStream, ?_, ?_⟩
  · rw [collectView_eq_filter]
    exact List.filter_sublist liveStream
  · intro e
    rw [collectView_eq_filter, List.mem_filter]
    constructor
    · rintro ⟨he, hp⟩
      exact ⟨he, (intersect_eq_iff_superset _ _).mp (by simpa using hp)⟩
    · rintro ⟨he, hs⟩
      exact ⟨he, by simpa using (intersect_eq_iff_superset _ _).mpr hs⟩

/-- C2: splitting a view slice, by split or split_with, partitions the
underlying live-handle stream into two contiguous disjoint index ranges
whose concatenation is the whole stream, the concatenation of the two
halves' yields is the yield of the unsplit stream, and hence an entity
is yielded by one of the halves iff it is yielded by the unsplit
stream. -/
theorem view_slice_split_partitions_stream (masks : Nat → BitSet)
    (s : ViewSlice) (n : Nat) :
    ((s.split_with n).1).iterator ++ ((s.split_with n).2).iterator = s.iterator ∧
    ((s.split_with n).1).items masks ++ ((s.split_with n).2).items masks =
      s.items masks ∧
    (∀ e, (e ∈ ((s.split_with n).1).items masks ∨
        e ∈ ((s.split_with n).2).items masks) ↔ e ∈ s.items masks) ∧
    ((s.split).1).iterator ++ ((s.split).2).iterator = s.iterator ∧
    ((s.split).1).items masks ++ ((s.split).2).items masks = s.items masks ∧
    (∀ e, (e ∈ ((s.split).1).items masks ∨ e ∈ ((s.split).2).items masks) ↔
      e ∈ s.items masks) := by
  have hw : ((s.split_with n).1).items masks ++ ((s.split_with n).2).items masks =
      s.items masks :=
    collectView_take_drop s.view masks s.iterator n
  have hm : ((s.split).1).items masks ++ ((s.split).2).items masks =
      s.items masks :=
    collectView_take_drop s.view masks s.iterator (s.iterator.length / 2)
  refine ⟨List.take_append_drop n s.iterator, hw, ?_,
    List.take_append_drop (s.iterator.length / 2) s.iterator, hm, ?_⟩
  · intro e
    rw [← hw, List.mem_append]
  · intro e
    rw [← hm, List.mem_append]

/-- C5 (counterexample): in the concrete slice sliceC5 whose stream is
three entities of which only the last two match the query, split_with(1)
gives a left half that yields nothing, while the first 1 matching
entities of the unsplit slice are the handle (1, 1): the left half does
not receive the first n matching positions. -/
theorem split_with_matching_positions_counterexample :
    ((sliceC5.split_with 1).1).items cmasksC5 = [] ∧
    (sliceC5.items cmasksC5).take 1 = [(⟨1, 1⟩ : Handle)] ∧
    ((sliceC5.split_with 1).1).items cmasksC5 ≠ (sliceC5.items cmasksC5).take 1 := by
  refine ⟨by decide, by decide, by decide⟩

/-- C5 (amended): split_with(n) sends the first n positions of the
underlying live-handle stream to the left half and the remaining
positions to the right half; each half yields the matching entities
among its own positions, so left yields the matching entities among the
first n stream positions (not the first n matching entities), and right
the matching entities among the remainder. -/
theorem split_with_takes_stream_positions (masks : Nat → BitSet)
    (s : ViewSlice) (n : Nat) :
    ((s.split_with n).1).iterator = s.iterator.take n ∧
    ((s.split_with n).2).iterator = s.iterator.drop n ∧
    ((s.split_with n).1).items masks =
      (s.iterator.take n).filter
        (fun e => decide ((masks e.index).intersect_with s.view = s.view)) ∧
    ((s.split_with n).2).items masks =
      (s.iterator.drop n).filter
        (fun e => decide ((masks e.index).intersect_with s.view = s.view)) := by
  exact ⟨rfl, rfl, collectView_eq_filter s.view masks (s.iterator.take n),
    collectView_eq_filter s.view masks (s.iterator.drop n)⟩

end Lemon

namespace Lemon

/-- Modelled from the spec: the World (ecs/world.rs is not in the source
tree) owns the handle pool, the per-index mask table and the
type-indexed arenas; component values of all registered types are
modelled in one value type. -/
structure World (α : Type) where
  pool : HandlePool
  masks : List BitSet
  arenas : List (List (Option α))

/-- Modelled from the spec: has is the presence-bit read. -/
def World.has {α : Type} (w : World α) (t : Nat) (e : Handle) : Bool :=
  ((w.masks.getD e.index BitSet.new).contains t).getD false

/-- Modelled from the spec: fetch yields the stored component when the
entity is alive and the presence bit for the type is set, and an empty
result otherwise. -/
def World.fetch {α : Type} (w : World α) (t : Nat) (e : Handle) : Option α :=
  if w.pool.is_alive e &&
      ((w.masks.getD e.index BitSet.new).contains t).getD false then
    (w.arenas.getD t []).getD e.index none
  else none

/-- Modelled from the spec: World::free. When the entity is alive, for
every set presence bit the value is removed from the matching arena (the
dropped values are collected as pairs of type id and value), the mask is
cleared, and the handle is freed; on a dead handle it is a no-op. -/
def World.free {α : Type} (w : World α) (e : Handle) :
    World α × List (Nat × α) :=
  if w.pool.is_alive e then
    ({ pool := (w.pool.free e).2,
       masks := w.masks.set e.index BitSet.new,
       arenas := w.arenas.mapIdx fun t a =>
         if ((w.masks.getD e.index BitSet.new).contains t).getD false then
           a.set e.index none
         else a },
     (List.range w.arenas.length).filterMap fun t =>
       if ((w.masks.getD e.index BitSet.new).contains t).getD false then
         ((w.arenas.getD t []).getD e.index none).map fun v => (t, v)
       else none)
  else (w, [])

/-- Concrete world for the C4 witness: one live entity at index 0 with
both registered component types present. -/
def wC4 : World Nat := ⟨⟨[1], []⟩, [⟨3⟩], [[some 10], [some 20]]⟩

end Lemon

namespace Lemon

theorem getD_set_lt {β : Type} (l : List β) (j : Nat) (x d : β)
    (hj : j < l.length) : (l.set j x).getD j d = x := by
  induction l generalizing j with
  | nil => simp at hj
  | cons a l ih =>
    cases j with
    | zero => simp
    | succ m => simpa using ih m (by simpa using hj)

theorem getD_of_length_le {β : Type} (l : List β) (j : Nat) (d : β)
    (hj : l.length ≤ j) : l.getD j d = d := by
  induction l generalizing j with
  | nil => simp
  | cons a l ih =>
    cases j with
    | zero => simp at hj
    | succ m => simpa using ih m (by simpa using hj)

theorem bitset_new_contains_getD (t : Nat) :
    ((BitSet.new).contains t).getD false = false := by
  unfold BitSet.contains BitSet.split BitSet.new
  by_cases ht : t < MAX_COMPONENTS * 64
  · have hz : (1 <<< (t % (MAX_COMPONENTS * 64))) &&& 0 = 0 :=
      Nat.eq_of_testBit_eq fun i => by
        rw [Nat.testBit_land]
        simp
    simp [ht, hz]
  · simp [ht]

theorem filterMap_guard_eq_filter (p : Nat → Bool) (l : List Nat) :
    (l.filterMap fun a => if p a then some a else none) = l.filter p := by
  induction l with
  | nil => rfl
  | cons a l ih =>
    by_cases hp : p a
    · simp [List.filterMap_cons, List.filter_cons, hp, ih]
    · simp [List.filterMap_cons, List.filter_cons, hp, ih]

theorem fetch_eq_none_of_bit_false {α : Type} (w : World α) (t : Nat)
    (e : Handle)
    (hb : ((w.masks.getD e.index BitSet.new).contains t).getD false = false) :
    w.fetch t e = none := by
  unfold World.fetch
  rw [hb, Bool.and_false]
  simp

theorem free_not_alive (p : HandlePool) (h : Handle)
    (ha : p.is_alive h = true) : ((p.free h).2).is_alive h = false := by
  obtain ⟨hlen, hnf, hver⟩ := is_alive_elim p h ha
  apply is_alive_false_of_version_ne
  rw [free_snd_of_alive p h ha]
  show (p.versions.set h.index (p.versions.getD h.index 0 + 1)).getD h.index 0
    ≠ h.version
  rw [getD_set_self p.versions h.index (p.versions.getD h.index 0 + 1) hlen]
  omega

end Lemon

namespace Lemon

/-- C4: freeing a live entity removes, from the arena of every component
type whose presence bit is set, the value stored at the entity index,
each exactly once: the dropped type ids are exactly the set-bit ids
below the number of registered types, without duplicates, and every
dropped pair carries the value that was stored; afterwards the mask is
cleared and the handle freed, so has is false and fetch is empty for
every type, and the entity is no longer alive. -/
theorem world_free_drops_components_once {α : Type} (w : World α)
    (e : Handle) (halive : w.pool.is_alive e = true)
    (hocc : ∀ t, t < w.arenas.length →
      ((w.masks.getD e.index BitSet.new).contains t).getD false = true →
      ((w.arenas.getD t []).getD e.index none).isSome = true) :
    ((w.free e).2).map Prod.fst =
      (List.range w.arenas.length).filter
        (fun t => ((w.masks.getD e.index BitSet.new).contains t).getD false) ∧
    (((w.free e).2).map Prod.fst).Nodup ∧
    (∀ t v, (t, v) ∈ (w.free e).2 →
      (w.arenas.getD t []).getD e.index none = some v ∧
      ((w.masks.getD e.index BitSet.new).contains t).getD false = true) ∧
    (∀ t, ((w.free e).1).has t e = false) ∧
    (∀ t, ((w.free e).1).fetch t e = none) ∧
    ((w.free e).1).pool.is_alive e = false := by
  have hsnd : (w.free e).2 =
      (List.range w.arenas.length).filterMap (fun t =>
        if ((w.masks.getD e.index BitSet.new).contains t).getD false then
          ((w.arenas.getD t []).getD e.index none).map (fun v => (t, v))
        else none) := by
    unfold World.free
    simp [halive]
  have hfst : (w.free e).1 =
      { pool := (w.pool.free e).2,
        masks := w.masks.set e.index BitSet.new,
        arenas := w.arenas.mapIdx fun t a =>
          if ((w.masks.getD e.index BitSet.new).contains t).getD false then
            a.set e.index none
          else a } := by
    unfold World.free
    simp [halive]
  have hmask : (w.masks.set e.index BitSet.new).getD e.index BitSet.new
      = BitSet.new := by
    by_cases hlt : e.index < w.masks.length
    · exact getD_set_lt _ _ _ _ hlt
    · exact getD_of_length_le _ _ _ (by simpa using Nat.le_of_not_lt hlt)
  have hmapfst : ((w.free e).2).map Prod.fst =
      (List.range w.arenas.length).filter
        (fun t => ((w.masks.getD e.index BitSet.new).contains t).getD false) := by
    rw [hsnd, List.map_filterMap]
    rw [List.filterMap_congr (g := fun t =>
      if ((w.masks.getD e.index BitSet.new).contains t).getD false then some t
      else none) ?hc]
    · exact filterMap_guard_eq_filter _ _
    · intro t ht
      rw [List.mem_range] at ht
      by_cases hb : ((w.masks.getD e.index BitSet.new).contains t).getD false
      · obtain ⟨v, hv⟩ := Option.isSome_iff_exists.mp (hocc t ht hb)
        rw [if_pos hb, hv]
        exact (if_pos hb).symm
      · rw [if_neg hb]
        exact (if_neg hb).symm
  have hhas : ∀ t, ((w.free e).1).has t e = false := by
    intro t
    rw [hfst]
    show (((w.masks.set e.index BitSet.new).getD e.index BitSet.new).contains t).getD false = false
    rw [hmask]
    exact bitset_new_contains_getD t
  refine ⟨hmapfst, ?_, ?_, hhas, ?_, ?_⟩
  · rw [hmapfst]
    exact List.Nodup.filter _ (List.nodup_range _)
  · intro t v hm
    rw [hsnd, List.mem_filterMap] at hm
    obtain ⟨t0, ht0, hf⟩ := hm
    by_cases hb : ((w.masks.getD e.index BitSet.new).contains t0).getD false
    · rw [if_pos hb] at hf
      obtain ⟨v0, hv0, heq⟩ := Option.map_eq_some'.mp hf
      have hts : t0 = t ∧ v0 = v := by
        constructor
        · exact congrArg Prod.fst heq
        · exact congrArg Prod.snd heq
      obtain ⟨ht', hv'⟩ := hts
      subst ht'
      subst hv'
      exact ⟨hv0, hb⟩
    · rw [if_neg hb] at hf
      simp at hf
  · intro t
    exact fetch_eq_none_of_bit_false ((w.free e).1) t e (hhas t)
  · rw [hfst]
    exact free_not_alive w.pool e halive

/-- Witness for C4 at the concrete world wC4: freeing the entity (0, 1)
drops the components of both registered types (ids 0 and 1), after which
has and fetch for type 0 are empty and the entity is dead. -/
theorem world_free_drops_components_once_witness :
    ((wC4.free ⟨0, 1⟩).2).map Prod.fst = [0, 1] ∧
    ((wC4.free ⟨0, 1⟩).1).has 0 ⟨0, 1⟩ = false ∧
    ((wC4.free ⟨0, 1⟩).1).fetch 0 ⟨0, 1⟩ = none ∧
    ((wC4.free ⟨0, 1⟩).1).pool.is_alive ⟨0, 1⟩ = false := by
  have h := world_free_drops_components_once wC4 ⟨0, 1⟩ (by decide) (by decide)
  refine ⟨?_, h.2.2.2.1 0, h.2.2.2.2.1 0, h.2.2.2.2.2⟩
  rw [h.1]
  decide

end Lemon

namespace Lemon

/-- Witness for C1 at a concrete query mask, mask table and stream. -/
theorem view_with_yields_superset_in_order_witness :
    collectView ⟨1⟩ cmasksC5 [⟨0, 1⟩, ⟨1, 1⟩] =
      List.filter
        (fun e => decide ((cmasksC5 e.index).intersect_with ⟨1⟩ = ⟨1⟩))
        [⟨0, 1⟩, ⟨1, 1⟩] :=
  (view_with_yields_superset_in_order ⟨1⟩ cmasksC5 [⟨0, 1⟩, ⟨1, 1⟩]).1

/-- Witness for C2 at the concrete slice sliceC5 split at position 1. -/
theorem view_slice_split_partitions_stream_witness :
    ((sliceC5.split_with 1).1).items cmasksC5 ++
      ((sliceC5.split_with 1).2).items cmasksC5 = sliceC5.items cmasksC5 :=
  (view_slice_split_partitions_stream cmasksC5 sliceC5 1).2.1

/-- Witness for the amended C5 at the concrete slice sliceC5 split at
position 2. -/
theorem split_with_takes_stream_positions_witness :
    ((sliceC5.split_with 2).1).iterator = sliceC5.iterator.take 2 :=
  (split_with_takes_stream_positions cmasksC5 sliceC5 2).1

end Lemon
